import Mathlib

/-!
# Verification of the `lseapprox` piecewise-linear log-sum-exp approximation engine

Shallow embedding of `src/lseapprox.py` over the exact reals. Python floats
become `ℝ`, `math.exp` / `math.log` become `Real.exp` / `Real.log`, and the
unbounded `while` loops become fuel-indexed structural recursions that fail
with `ApxError.noResult` when the fuel is exhausted (standing for
non-termination) or when a loop body that the source expects to have run at
least once never ran (the source would read an unbound name there). Python
exception propagation becomes `Except`.
-/

noncomputable section

namespace LseApprox

/-- Failure conditions of the embedded engine. `invalidArgument` is the
condition the specification asks for on bad `r`; the source never raises it.
`noResult` stands for a loop that did not finish within the given fuel, or a
bisection whose body never executed. -/
inductive ApxError where
  | invalidArgument
  | noResult
deriving DecidableEq

/-- Rounding to 8 decimal places, `np.round(x, 8)`. Modelled with
round-half-up; NumPy rounds half to even, the two differ only on exact ties. -/
def round8 (x : ℝ) : ℝ := (round (x * 10 ^ 8) : ℤ) / 10 ^ 8

/-- Round both components of a half-plane normal. -/
def round8Pair (p : ℝ × ℝ) : ℝ × ℝ := (round8 p.1, round8 p.2)

/-- `addshp(x, y)` (source lines 174-190): the tangent line of the lse
function at `(x, y)`. `Fi` is the transposed gradient
`(1/(exp x + exp y)) * (exp x, exp y)` and `gi = (-1 * Fi) · (x, y)`. -/
def addshp (x y : ℝ) : (ℝ × ℝ) × ℝ :=
  let Fi : ℝ × ℝ :=
    (1 / (Real.exp x + Real.exp y) * Real.exp x,
     1 / (Real.exp x + Real.exp y) * Real.exp y)
  let gi : ℝ := -1 * (Fi.1 * x + Fi.2 * y)
  (Fi, gi)

/-- The inner bisection tolerance of `invapx`, `tol = 1e-12`. -/
def tolInner : ℝ := 1 / 10 ^ 12

/-- First inner bisection of `invapx` (source lines 125-133): searches for the
tangent point whose supporting line passes through the current vertex
`(vx, vy)`. The source keeps using `midx`, `midy`, `Fi`, `gi` after the loop,
so the recursion threads the data of the last executed iteration; if the body
never ran the source would hit an unbound name, embedded as the initial
`last = .error .noResult`. -/
def bisect1 (vx vy : ℝ) : ℕ → ℝ → ℝ → Except ApxError (ℝ × ℝ × (ℝ × ℝ) × ℝ) →
    Except ApxError (ℝ × ℝ × (ℝ × ℝ) × ℝ)
  | 0, _, _, _ => .error .noResult
  | f + 1, ll, uu, last =>
    if uu - ll > tolInner then
      let midx := (ll + uu) / 2
      let midy := Real.log (1 - Real.exp midx)
      let Fg := addshp midx midy
      let uu2 := if Fg.1.1 * vx + Fg.1.2 * vy + Fg.2 ≥ 0 then midx else uu
      let ll2 := if Fg.1.1 * vx + Fg.1.2 * vy + Fg.2 ≤ 0 then midx else ll
      bisect1 vx vy f ll2 uu2 (.ok (midx, midy, Fg))
    else last

/-- Second inner bisection of `invapx` (source lines 142-155): finds the `x`
where the vertical gap between the new half-plane and the true curve equals
`epsilon`; the source then takes the final lower bracket `ll` as the next
vertex abscissa. Over `ℝ` the exponential `z = exp val` never overflows, so
the source's `OverflowError -> math.inf` branch has no counterpart here. -/
def bisect2 (Fi : ℝ × ℝ) (gi epsilon : ℝ) : ℕ → ℝ → ℝ → Except ApxError ℝ
  | 0, _, _ => .error .noResult
  | f + 1, ll, uu =>
    if uu - ll > tolInner then
      let mid := (ll + uu) / 2
      let midexp := Real.exp mid
      let val := (-gi - Fi.1 * mid) / Fi.2
      let z := Real.exp val
      let midval := Real.log (midexp + z)
      let uu2 := if midval ≤ epsilon then mid else uu
      let ll2 := if midval ≥ epsilon then mid else ll
      bisect2 Fi gi epsilon f ll2 uu2
    else .ok ll

/-- Outer loop of `invapx` (source lines 113-167). `fb` is the fuel handed to
each inner bisection. The source's `vert` and `xys` stacks are only ever read
at their most recently prepended row, so only the current vertex `(vx, vy)`
and, inside one iteration, the last tangent abscissa `midx` are carried.
Each iteration prepends the new tangent half-plane `(Fi, gi)`; on termination
the final axis-aligned half-plane `([0, 1], 0)` is prepended and the
accumulated facet list is returned. -/
def invapxLoop (epsilon M leftest : ℝ) (fb : ℕ) :
    ℕ → ℝ → ℝ → List (ℝ × ℝ) → List ℝ →
    Except ApxError (List (ℝ × ℝ) × List ℝ)
  | 0, _, _, _, _ => .error .noResult
  | f + 1, vx, vy, F, g =>
    match bisect1 vx vy fb (-M) vx (.error .noResult) with
    | .error e => .error e
    | .ok md =>
      let midx := md.1
      let Fi := md.2.2.1
      let gi := md.2.2.2
      let F2 := Fi :: F
      let g2 := gi :: g
      match bisect2 Fi gi epsilon fb (-M) midx with
      | .error e => .error e
      | .ok vx2 =>
        let vy2 := (-gi - Fi.1 * vx2) / Fi.2
        if vx2 > leftest then
          invapxLoop epsilon M leftest fb f vx2 vy2 F2 g2
        else
          .ok ((0, 1) :: F2, 0 :: g2)

/-- `invapx(epsilon)` (source lines 93-171): builds the facet list `(F, g)`
for the error bound `epsilon`, starting from `F = [[1, 0]]`, `g = [0]` and the
vertex `(0, log(exp epsilon - 1))`, then rounds every coefficient to 8
decimals. `fuel` bounds the otherwise unbounded `while True` loop. -/
def invapx (fuel : ℕ) (epsilon : ℝ) :
    Except ApxError (List (ℝ × ℝ) × List ℝ) :=
  let leftest := Real.log (Real.exp epsilon - 1)
  let M := |(100 : ℝ) * leftest|
  match invapxLoop epsilon M leftest fuel fuel 0 leftest [(1, 0)] [0] with
  | .error e => .error e
  | .ok Fg => .ok (Fg.1.map round8Pair, Fg.2.map round8)

/-- The outer bisection tolerance of `lowerapprox`, `tol = 1e-14`. -/
def tolOuter : ℝ := 1 / 10 ^ 14

/-- Outer bisection of `lowerapprox` (source lines 80-86): shrink the error
bracket `[ll, uu]` until its width is at most `tolOuter`; the bracket moves up
when the facet count at the midpoint exceeds `r` and down otherwise. Returns
the final upper bracket `uu`. `fi` is the fuel handed to `invapx`. -/
def lowerLoop (fi : ℕ) (r : ℕ) : ℕ → ℝ → ℝ → Except ApxError ℝ
  | 0, _, _ => .error .noResult
  | f + 1, ll, uu =>
    if uu - ll > tolOuter then
      let mid := (uu + ll) / 2
      match invapx fi mid with
      | .error e => .error e
      | .ok Fg =>
        if Fg.1.length > r then lowerLoop fi r f mid uu
        else lowerLoop fi r f ll mid
    else .ok uu

/-- `lowerapprox(r)` (source lines 59-90). The bracket starts at
`ll = 0`, `uu = log 2`; for `r = 2` the fixed two-facet polytope
`A = [[0, 1], [1, 0]]`, `b = [0, 0]` is returned with `apx_err = uu = log 2`
(the loop never runs, so `uu` keeps its initial value); otherwise the error is
bisected and `invapx` is solved once more at the converged upper bound. -/
def lowerapprox (fuel : ℕ) (r : ℕ) :
    Except ApxError (List (ℝ × ℝ) × List ℝ × ℝ) :=
  if r = 2 then .ok ([(0, 1), (1, 0)], [0, 0], Real.log 2)
  else
    match lowerLoop fuel r fuel 0 (Real.log 2) with
    | .error e => .error e
    | .ok uu =>
      match invapx fuel uu with
      | .error e => .error e
      | .ok Fg => .ok (Fg.1, Fg.2, uu)

/-- `upperapprox(r)` (source lines 41-56): take the lower approximation and
add the achieved error to every offset, `b := np.add(err, b)`. -/
def upperapprox (fuel : ℕ) (r : ℕ) :
    Except ApxError (List (ℝ × ℝ) × List ℝ × ℝ) :=
  match lowerapprox fuel r with
  | .error e => .error e
  | .ok Abe => .ok (Abe.1, Abe.2.1.map (fun x => Abe.2.2 + x), Abe.2.2)

/-- C9: `addshp(x, y)` returns the normal
`Fi = (exp x, exp y) / (exp x + exp y)` — the gradient of
`f(x, y) = log(exp x + exp y)` at `(x, y)` — and the offset
`gi = -Fi · (x, y)`; consequently `Fi · (x, y) + gi = 0`, so the returned
hyperplane passes through the point `(x, y)`. -/
theorem addshp_gradient_tangent (x y : ℝ) :
    (addshp x y).1.1 = Real.exp x / (Real.exp x + Real.exp y) ∧
    (addshp x y).1.2 = Real.exp y / (Real.exp x + Real.exp y) ∧
    (addshp x y).2 = -((addshp x y).1.1 * x + (addshp x y).1.2 * y) ∧
    (addshp x y).1.1 * x + (addshp x y).1.2 * y + (addshp x y).2 = 0 := by
  refine ⟨?_, ?_, ?_, ?_⟩ <;> simp only [addshp] <;> ring

/-- C1 counterexample: `lowerapprox(2)` does return
`A = [[0, 1], [1, 0]]` and `b = [0, 0]`, but the returned error is
`log 2`, which is not `0`. -/
theorem lowerapprox_two_error_ne_zero :
    lowerapprox 0 2 = .ok ([(0, 1), (1, 0)], [0, 0], Real.log 2) ∧
    Real.log 2 ≠ 0 :=
  ⟨rfl, ne_of_gt (Real.log_pos one_lt_two)⟩

/-- C1 amended: `lowerapprox(2)` returns exactly the closed-form two-facet
polytope `A = [[0, 1], [1, 0]]`, `b = [0, 0]` without bisecting, and the
reported error is the untouched initial upper bracket `log 2` (the true
supremum gap of the two-facet approximation), not `0`. -/
theorem lowerapprox_two (fuel : ℕ) :
    lowerapprox fuel 2 = .ok ([(0, 1), (1, 0)], [0, 0], Real.log 2) := rfl

/-- C4: whenever `lowerapprox` returns `(A, b, err)`, `upperapprox` returns
the same matrix `A` and the same error `err`, and its offset vector is `b`
shifted elementwise by `err`: entry `i` equals `b[i] + err`. -/
theorem upperapprox_shifts_offsets (fuel r : ℕ) (A : List (ℝ × ℝ)) (b : List ℝ)
    (err : ℝ) (h : lowerapprox fuel r = .ok (A, b, err)) :
    upperapprox fuel r = .ok (A, b.map (fun x => err + x), err) ∧
    ∀ i : Fin b.length,
      (b.map (fun x => err + x)).get (Fin.cast (by simp) i) = b.get i + err := by
  constructor
  · simp [upperapprox, h]
  · intro i
    simp [List.get_eq_getElem]
    ring

/-- C4 witness at `r = 2`. -/
theorem upperapprox_shifts_offsets_witness :
    upperapprox 0 2 =
      .ok ([(0, 1), (1, 0)], List.map (fun x => Real.log 2 + x) [0, 0],
        Real.log 2) :=
  (upperapprox_shifts_offsets 0 2 [(0, 1), (1, 0)] [0, 0] (Real.log 2) rfl).1

theorem bisect1_ne_invalid (vx vy : ℝ) :
    ∀ (f : ℕ) (ll uu : ℝ) (last : Except ApxError (ℝ × ℝ × (ℝ × ℝ) × ℝ)),
      last ≠ .error .invalidArgument →
      bisect1 vx vy f ll uu last ≠ .error .invalidArgument := by
  intro f
  induction f with
  | zero => intro ll uu last _; simp [bisect1]
  | succ f ih =>
    intro ll uu last hlast
    rw [bisect1]
    split
    · exact ih _ _ _ (by simp)
    · exact hlast

theorem bisect2_ne_invalid (Fi : ℝ × ℝ) (gi epsilon : ℝ) :
    ∀ (f : ℕ) (ll uu : ℝ),
      bisect2 Fi gi epsilon f ll uu ≠ .error .invalidArgument := by
  intro f
  induction f with
  | zero => intro ll uu; simp [bisect2]
  | succ f ih =>
    intro ll uu
    rw [bisect2]
    split
    · exact ih _ _
    · simp

theorem invapxLoop_ne_invalid (epsilon M leftest : ℝ) (fb : ℕ) :
    ∀ (f : ℕ) (vx vy : ℝ) (F : List (ℝ × ℝ)) (g : List ℝ),
      invapxLoop epsilon M leftest fb f vx vy F g ≠ .error .invalidArgument := by
  intro f
  induction f with
  | zero => intro vx vy F g; simp [invapxLoop]
  | succ f ih =>
    intro vx vy F g
    rw [invapxLoop]
    split
    next e heq =>
      have hb := bisect1_ne_invalid vx vy fb (-M) vx (.error .noResult) (by simp)
      rw [heq] at hb
      simpa using hb
    next md heq =>
      dsimp only
      split
      next e2 heq2 =>
        have hb := bisect2_ne_invalid md.2.2.1 md.2.2.2 epsilon fb (-M) md.1
        rw [heq2] at hb
        simpa using hb
      next vx2 heq2 =>
        split
        · exact ih _ _ _ _
        · simp

theorem invapx_ne_invalid (fuel : ℕ) (epsilon : ℝ) :
    invapx fuel epsilon ≠ .error .invalidArgument := by
  rw [invapx]
  cases h : invapxLoop epsilon |(100 : ℝ) * Real.log (Real.exp epsilon - 1)|
      (Real.log (Real.exp epsilon - 1)) fuel fuel 0
      (Real.log (Real.exp epsilon - 1)) [(1, 0)] [0] with
  | error e =>
    have hb := invapxLoop_ne_invalid epsilon
      |(100 : ℝ) * Real.log (Real.exp epsilon - 1)|
      (Real.log (Real.exp epsilon - 1)) fuel fuel 0
      (Real.log (Real.exp epsilon - 1)) [(1, 0)] [0]
    rw [h] at hb
    simpa using hb
  | ok Fg => simp

theorem lowerLoop_ne_invalid (fi r : ℕ) :
    ∀ (f : ℕ) (ll uu : ℝ),
      lowerLoop fi r f ll uu ≠ .error .invalidArgument := by
  intro f
  induction f with
  | zero => intro ll uu; simp [lowerLoop]
  | succ f ih =>
    intro ll uu
    rw [lowerLoop]
    split
    · dsimp only
      split
      next e heq =>
        have hb := invapx_ne_invalid fi ((uu + ll) / 2)
        rw [heq] at hb
        simpa using hb
      next Fg heq =>
        split
        · exact ih _ _
        · exact ih _ _
    · simp

theorem lowerapprox_ne_invalid (fuel r : ℕ) :
    lowerapprox fuel r ≠ .error .invalidArgument := by
  rw [lowerapprox]
  split
  · simp
  · split
    next e heq =>
      have hb := lowerLoop_ne_invalid fuel r fuel 0 (Real.log 2)
      rw [heq] at hb
      simpa using hb
    next uu heq =>
      split
      next e2 heq2 =>
        have hb := invapx_ne_invalid fuel uu
        rw [heq2] at hb
        simpa using hb
      next Fg heq2 => simp

theorem upperapprox_ne_invalid (fuel r : ℕ) :
    upperapprox fuel r ≠ .error .invalidArgument := by
  rw [upperapprox]
  split
  next e heq =>
    have hb := lowerapprox_ne_invalid fuel r
    rw [heq] at hb
    simpa using hb
  next Abe heq => simp

/-- C3 counterexample: at the concrete inputs `r = 1` and `r = 0` the engine
does not fail with `InvalidArgument`: no validation exists in the source, the
call proceeds into the general bisection path. -/
theorem lowerapprox_small_r_no_invalid :
    lowerapprox 3 1 ≠ .error .invalidArgument ∧
    lowerapprox 3 0 ≠ .error .invalidArgument :=
  ⟨lowerapprox_ne_invalid 3 1, lowerapprox_ne_invalid 3 0⟩

/-- C3 amended: the source performs no input validation: for `r = 1` or
`r = 0`, `lowerapprox` and `upperapprox` proceed into the general bisection
path and never raise an `InvalidArgument` condition; the only failure the
embedding can produce is the `noResult` of a loop that did not finish. -/
theorem no_invalid_argument_for_small_r (fuel : ℕ) :
    lowerapprox fuel 1 ≠ .error .invalidArgument ∧
    lowerapprox fuel 0 ≠ .error .invalidArgument ∧
    upperapprox fuel 1 ≠ .error .invalidArgument ∧
    upperapprox fuel 0 ≠ .error .invalidArgument :=
  ⟨lowerapprox_ne_invalid fuel 1, lowerapprox_ne_invalid fuel 0,
   upperapprox_ne_invalid fuel 1, upperapprox_ne_invalid fuel 0⟩

theorem round8_idem (x : ℝ) : round8 (round8 x) = round8 x := by
  unfold round8
  rw [div_mul_cancel₀ _ (by norm_num : ((10 : ℝ) ^ 8) ≠ 0), round_intCast]

theorem round8_zero : round8 0 = 0 := by
  simp [round8]

theorem round8_one : round8 1 = 1 := by
  unfold round8
  rw [one_mul, show ((10 : ℝ) ^ 8) = ((100000000 : ℤ) : ℝ) by norm_num,
    round_intCast]
  norm_num

theorem round8Pair_idem (p : ℝ × ℝ) : round8Pair (round8Pair p) = round8Pair p := by
  simp [round8Pair, round8_idem]

theorem map_round8_self (L : List ℝ) :
    (L.map round8).map round8 = L.map round8 := by
  induction L with
  | nil => rfl
  | cons a L ih => simp [round8_idem, ih]

theorem map_round8Pair_self (L : List (ℝ × ℝ)) :
    (L.map round8Pair).map round8Pair = L.map round8Pair := by
  induction L with
  | nil => rfl
  | cons a L ih => simp [round8Pair_idem, ih]

/-- The 8-decimal rounding invariant for an `invapx` result: every matrix
entry and every offset equals its own rounding. -/
def rounded8Fg : Except ApxError (List (ℝ × ℝ) × List ℝ) → Prop
  | .error _ => True
  | .ok Fg => Fg.1.map round8Pair = Fg.1 ∧ Fg.2.map round8 = Fg.2

/-- The 8-decimal rounding invariant for an `(A, b, err)` result. -/
def rounded8Ab : Except ApxError (List (ℝ × ℝ) × List ℝ × ℝ) → Prop
  | .error _ => True
  | .ok Abe => Abe.1.map round8Pair = Abe.1 ∧ Abe.2.1.map round8 = Abe.2.1

/-- Like `rounded8Ab`, but only for the matrix `A`. -/
def rounded8A : Except ApxError (List (ℝ × ℝ) × List ℝ × ℝ) → Prop
  | .error _ => True
  | .ok Abe => Abe.1.map round8Pair = Abe.1

theorem invapx_rounded (fuel : ℕ) (epsilon : ℝ) :
    rounded8Fg (invapx fuel epsilon) := by
  rw [invapx]
  split
  · simp [rounded8Fg]
  · exact ⟨map_round8Pair_self _, map_round8_self _⟩

theorem lowerapprox_rounded (fuel r : ℕ) :
    rounded8Ab (lowerapprox fuel r) := by
  rw [lowerapprox]
  split
  · refine ⟨?_, ?_⟩ <;>
      simp [round8Pair, round8_zero, round8_one]
  · split
    next e heq => simp [rounded8Ab]
    next uu heq =>
      split
      next e2 heq2 => simp [rounded8Ab]
      next Fg heq2 =>
        have hr := invapx_rounded fuel uu
        rw [heq2] at hr
        exact hr

/-- C7 amended: every coefficient produced by `invapx` is 8-decimal rounded
(the final `np.round(F, 8)` / `np.round(g, 8)` is idempotent), hence so are
all entries of `A` and `b` returned by `lowerapprox` (the `r = 2` closed form
being integral) and the matrix `A` returned by `upperapprox`. The offset
vector of `upperapprox` adds the unrounded error to `b` and is therefore not
rounded in general. -/
theorem returned_coefficients_rounded (fuel r : ℕ) (epsilon : ℝ) :
    rounded8Fg (invapx fuel epsilon) ∧ rounded8Ab (lowerapprox fuel r) ∧
    rounded8A (upperapprox fuel r) := by
  refine ⟨invapx_rounded fuel epsilon, lowerapprox_rounded fuel r, ?_⟩
  rw [upperapprox]
  split
  next e heq => simp [rounded8A]
  next Abe heq =>
    have hr := lowerapprox_rounded fuel r
    rw [heq] at hr
    exact hr.1

theorem round_log_two_scaled : round (Real.log 2 * 10 ^ 8) = 69314718 := by
  have h1 := Real.log_two_gt_d9
  have h2 := Real.log_two_lt_d9
  rw [round_eq, Int.floor_eq_iff]
  constructor
  · push_cast
    nlinarith
  · push_cast
    nlinarith

theorem round8_log_two : round8 (Real.log 2) = 69314718 / 10 ^ 8 := by
  unfold round8
  rw [round_log_two_scaled]
  norm_num

/-- C7 counterexample: `upperapprox(2)` returns offsets `b = [log 2, log 2]`
(the unrounded error added to the zero offsets), and `log 2` is not equal to
its own rounding to 8 decimal places. -/
theorem upperapprox_two_offsets_not_rounded :
    upperapprox 0 2 =
      .ok ([(0, 1), (1, 0)], [Real.log 2 + 0, Real.log 2 + 0], Real.log 2) ∧
    round8 (Real.log 2 + 0) ≠ Real.log 2 + 0 := by
  refine ⟨rfl, ?_⟩
  rw [add_zero, round8_log_two]
  have h1 := Real.log_two_gt_d9
  intro hcon
  rw [← hcon] at h1
  norm_num at h1

theorem invapxLoop_decomp (epsilon M leftest : ℝ) (fb : ℕ) :
    ∀ (f : ℕ) (vx vy : ℝ) (F : List (ℝ × ℝ)) (g : List ℝ)
      (F2 : List (ℝ × ℝ)) (g2 : List ℝ),
      invapxLoop epsilon M leftest fb f vx vy F g = .ok (F2, g2) →
      ∃ L1 L2, L1 ≠ [] ∧ L2 ≠ [] ∧ F2 = (0, 1) :: (L1 ++ F) ∧
        g2 = 0 :: (L2 ++ g) := by
  intro f
  induction f with
  | zero =>
    intro vx vy F g F2 g2 h
    rw [invapxLoop] at h
    cases h
  | succ f ih =>
    intro vx vy F g F2 g2 h
    rw [invapxLoop] at h
    split at h
    · cases h
    next md heq =>
      dsimp only at h
      split at h
      · cases h
      next vx2 heq2 =>
        split at h
        · obtain ⟨L1, L2, hL1, hL2, hF, hg⟩ := ih _ _ _ _ _ _ h
          refine ⟨L1 ++ [md.2.2.1], L2 ++ [md.2.2.2], by simp, by simp, ?_, ?_⟩
          · rw [hF, List.append_assoc, List.singleton_append]
          · rw [hg, List.append_assoc, List.singleton_append]
        · injection h with h2
          injection h2 with hF hg
          exact ⟨[md.2.2.1], [md.2.2.2], by simp, by simp, hF.symm, hg.symm⟩

/-- The shape invariant of a facet list built by `invapx`: the first inserted
half-plane (prepended last) is the axis-aligned `[0, 1]` with offset `0`, the
initial half-plane (kept at the end) is `[1, 0]` with offset `0`, and at
least three half-planes are present. -/
def facetShape (F : List (ℝ × ℝ)) (g : List ℝ) : Prop :=
  F.head? = some (0, 1) ∧ F.getLast? = some (1, 0) ∧
  g.head? = some 0 ∧ g.getLast? = some 0 ∧ 3 ≤ F.length ∧ 3 ≤ g.length

/-- `facetShape` read off an `invapx` result. -/
def facetShapeFg : Except ApxError (List (ℝ × ℝ) × List ℝ) → Prop
  | .error _ => True
  | .ok Fg => facetShape Fg.1 Fg.2

/-- `facetShape` read off a `lowerapprox` result. -/
def facetShapeAb : Except ApxError (List (ℝ × ℝ) × List ℝ × ℝ) → Prop
  | .error _ => True
  | .ok Abe => facetShape Abe.1 Abe.2.1

theorem invapx_shape_aux (fuel : ℕ) (epsilon : ℝ) :
    facetShapeFg (invapx fuel epsilon) := by
  rw [invapx]
  split
  · simp [facetShapeFg]
  next Fg heq =>
    obtain ⟨L1, L2, hL1, hL2, hF, hg⟩ :=
      invapxLoop_decomp _ _ _ _ _ _ _ _ _ _ _ heq
    refine ⟨?_, ?_, ?_, ?_, ?_, ?_⟩
    · rw [hF]
      simp [round8Pair, round8_zero, round8_one]
    · rw [hF]
      simp only [List.map_cons, List.map_append, List.map_nil, ← List.cons_append]
      rw [List.getLast?_append_cons]
      simp [round8Pair, round8_zero, round8_one]
    · rw [hg]
      simp [round8_zero]
    · rw [hg]
      simp only [List.map_cons, List.map_append, List.map_nil, ← List.cons_append]
      rw [List.getLast?_append_cons]
      simp [round8_zero]
    · rw [hF]
      have := List.length_pos.mpr hL1
      simp only [List.length_map, List.length_cons, List.length_append]
      omega
    · rw [hg]
      have := List.length_pos.mpr hL2
      simp only [List.length_map, List.length_cons, List.length_append]
      omega

/-- C10: every terminating `invapx` run returns a facet list whose first row
is the axis-aligned half-plane `[0, 1]` with offset `0` and whose last row is
the axis-aligned half-plane `[1, 0]` with offset `0`, with at least three
half-planes; hence every `lowerapprox(r)` result computed via bisection
(`r > 2`, here `r + 3`) has the same shape. -/
theorem invapx_first_last_facets (fuel r : ℕ) (epsilon : ℝ) :
    facetShapeFg (invapx fuel epsilon) ∧
    facetShapeAb (lowerapprox fuel (r + 3)) := by
  refine ⟨invapx_shape_aux fuel epsilon, ?_⟩
  rw [lowerapprox, if_neg (by omega : ¬r + 3 = 2)]
  split
  next e heq => simp [facetShapeAb]
  next uu heq =>
    split
    next e2 heq2 => simp [facetShapeAb]
    next Fg heq2 =>
      have hs := invapx_shape_aux fuel uu
      rw [heq2] at hs
      exact hs

/-- The achieved error of an approximation result, when one was produced. -/
def errOf : Except ApxError (List (ℝ × ℝ) × List ℝ × ℝ) → Option ℝ
  | .error _ => none
  | .ok Abe => some Abe.2.2

/-- Comparison of two optional errors: trivially true unless both exist. -/
def optLE : Option ℝ → Option ℝ → Prop
  | some a, some b => a ≤ b
  | _, _ => True

/-- Comparison of two fallible bisection results: trivially true unless both
succeed. -/
def exceptLE : Except ApxError ℝ → Except ApxError ℝ → Prop
  | .ok a, .ok b => a ≤ b
  | _, _ => True

theorem lowerLoop_bracket (fi r : ℕ) :
    ∀ (f : ℕ) (ll uu u2 : ℝ), ll ≤ uu → lowerLoop fi r f ll uu = .ok u2 →
      ll ≤ u2 ∧ u2 ≤ uu := by
  intro f
  induction f with
  | zero =>
    intro ll uu u2 hle h
    rw [lowerLoop] at h
    cases h
  | succ f ih =>
    intro ll uu u2 hle h
    rw [lowerLoop] at h
    split at h
    · dsimp only at h
      split at h
      · cases h
      next Fg heq =>
        have hm1 : ll ≤ (uu + ll) / 2 := by linarith
        have hm2 : (uu + ll) / 2 ≤ uu := by linarith
        split at h
        · have := ih ((uu + ll) / 2) uu u2 hm2 h
          exact ⟨by linarith [this.1], this.2⟩
        · have := ih ll ((uu + ll) / 2) u2 hm1 h
          exact ⟨this.1, by linarith [this.2]⟩
    · injection h with h2
      exact ⟨h2 ▸ hle, h2 ▸ le_refl uu⟩

theorem lowerLoop_mono (fi r : ℕ) :
    ∀ (f : ℕ) (ll uu : ℝ), ll ≤ uu →
      exceptLE (lowerLoop fi (r + 1) f ll uu) (lowerLoop fi r f ll uu) := by
  intro f
  induction f with
  | zero =>
    intro ll uu hle
    rw [lowerLoop, lowerLoop]
    simp [exceptLE]
  | succ f ih =>
    intro ll uu hle
    have hm1 : ll ≤ (uu + ll) / 2 := by linarith
    have hm2 : (uu + ll) / 2 ≤ uu := by linarith
    rw [lowerLoop, lowerLoop]
    by_cases hcond : uu - ll > tolOuter
    · rw [if_pos hcond, if_pos hcond]
      dsimp only
      cases hE : invapx fi ((uu + ll) / 2) with
      | error e => simp [exceptLE]
      | ok Fg =>
        dsimp only
        by_cases hlen1 : Fg.1.length > r + 1
        · rw [if_pos hlen1, if_pos (by omega : Fg.1.length > r)]
          exact ih ((uu + ll) / 2) uu hm2
        · by_cases hlen0 : Fg.1.length > r
          · rw [if_neg hlen1, if_pos hlen0]
            cases hA : lowerLoop fi (r + 1) f ll ((uu + ll) / 2) with
            | error e => simp [exceptLE]
            | ok a =>
              cases hB : lowerLoop fi r f ((uu + ll) / 2) uu with
              | error e => simp [exceptLE]
              | ok b =>
                have h1 := lowerLoop_bracket fi (r + 1) f ll ((uu + ll) / 2) a hm1 hA
                have h2 := lowerLoop_bracket fi r f ((uu + ll) / 2) uu b hm2 hB
                simp only [exceptLE]
                linarith [h1.2, h2.1]
          · rw [if_neg hlen1, if_neg hlen0]
            exact ih ll ((uu + ll) / 2) hm1
    · rw [if_neg hcond, if_neg hcond]
      simp [exceptLE]

/-- C8: the achieved error of `lowerapprox` is monotonically non-increasing in
the facet count: whenever `lowerapprox` produces results at two consecutive
facet counts `r + 2` and `r + 3` (with the same loop fuel), the error at
`r + 3` is at most the error at `r + 2`; in particular this covers the swept
range `r = 2 .. 20`. -/
theorem lowerapprox_error_antitone (fuel r : ℕ) :
    optLE (errOf (lowerapprox fuel (r + 3))) (errOf (lowerapprox fuel (r + 2))) := by
  have hlog : (0 : ℝ) ≤ Real.log 2 := Real.log_nonneg one_le_two
  cases r with
  | zero =>
    have h2 : lowerapprox fuel 2 = .ok ([(0, 1), (1, 0)], [0, 0], Real.log 2) := rfl
    rw [h2, lowerapprox, if_neg (by omega : ¬0 + 3 = 2)]
    split
    next e heq => simp [errOf, optLE]
    next uu heq =>
      split
      next e2 heq2 => simp [errOf, optLE]
      next Fg heq2 =>
        have := lowerLoop_bracket fuel (0 + 3) fuel 0 (Real.log 2) uu hlog heq
        simpa [errOf, optLE] using this.2
  | succ n =>
    have hmono := lowerLoop_mono fuel (n + 3) fuel 0 (Real.log 2) hlog
    have hidx : n + 1 + 3 = n + 3 + 1 := by omega
    rw [lowerapprox, lowerapprox, hidx,
      if_neg (by omega : ¬n + 3 + 1 = 2), if_neg (by omega : ¬n + 3 = 2)]
    cases hA : lowerLoop fuel (n + 3 + 1) fuel 0 (Real.log 2) with
    | error e => simp [errOf, optLE]
    | ok u1 =>
      cases hB : lowerLoop fuel (n + 3) fuel 0 (Real.log 2) with
      | error e =>
        dsimp only
        split
        next e2 heq2 => simp [errOf, optLE]
        next Fg heq2 => simp [errOf, optLE]
      | ok u2 =>
        rw [hA, hB] at hmono
        dsimp only
        split
        next e2 heq2 => simp [errOf, optLE]
        next Fg heq2 =>
          split
          next e3 heq3 => simp [errOf, optLE]
          next Fg2 heq3 =>
            simpa [errOf, optLE] using hmono

end LseApprox
